import Mathlib

/-!
Shallow embedding of `src/lib.rs` (crate `shim`): a fixed-memory,
time-windowed histogram.  Rust `u64`/`u32`/`u16`/`u8` values are modelled
as `Nat` with explicit wrap-around (`% 2^64`, `% 2^32`) exactly where the
release-mode Rust arithmetic wraps.  The `Instant`-based elapsed time of
`Histogram::append` is passed as an explicit `elapsed` parameter (seconds
since creation), which is the only state the embedding externalises.
Rust panics (division by zero in `Scale::avg`) are modelled as `Option.none`.
The single `f32` expression in `Range::check_in` is modelled by exact
integer arithmetic with round-half-away-from-zero, which agrees with the
`f32` computation on the small spans exercised in this development.
-/

deriving instance DecidableEq for Except

namespace Shim

/-- `u64::MAX` as a natural number. -/
def u64MAX : Nat := 2 ^ 64 - 1

/-- `u32::MAX` as a natural number. -/
def u32MAX : Nat := 2 ^ 32 - 1

/-- Wrapping `u64` subtraction (release-mode Rust semantics of `a - b`). -/
def sub64 (a b : Nat) : Nat := (a + 2 ^ 64 - b) % 2 ^ 64

/-- Wrapping `u64` addition. -/
def add64 (a b : Nat) : Nat := (a + b) % 2 ^ 64

/-- Wrapping `u32` subtraction (release-mode Rust semantics of `a - b`). -/
def sub32 (a b : Nat) : Nat := (a + 2 ^ 32 - b) % 2 ^ 32

/-- `struct Scale { sum: u64, power: u32, count: u32 }` -/
structure Scale where
  sum : Nat
  power : Nat
  count : Nat
deriving DecidableEq

/-- The all-zero `Scale` literal used throughout the source. -/
def zeroScale : Scale := ⟨0, 0, 0⟩

/-- `Scale::append` (src/lib.rs lines 28-41): wraparound-safe accumulation.
`let v = u64::MAX - self.sum; if value >= v { power saturating += 1; sum = value - v } else { sum += value }; count saturating += 1`. -/
def Scale.append (s : Scale) (value : Nat) : Scale :=
  let v := u64MAX - s.sum
  let s :=
    if value ≥ v then
      { s with power := if s.power < u32MAX then s.power + 1 else s.power
               sum := value - v }
    else
      { s with sum := s.sum + value }
  if s.count < u32MAX then { s with count := s.count + 1 } else s

/-- `Scale::add` (src/lib.rs lines 44-48): `count += other.count` and
`power += other.power` are plain `u32` additions (release-mode wrap, no
saturation), then `other.sum` is folded in via `Scale::append` (which also
increments `count` once more). -/
def Scale.add (s v : Scale) : Scale :=
  Scale.append { s with count := (s.count + v.count) % 2 ^ 32
                        power := (s.power + v.power) % 2 ^ 32 } v.sum

/-- `Scale::avg` (src/lib.rs lines 51-54):
`((sum as u128 + u64::MAX as u128 * power as u128) / count as u128) as u64`.
Rust panics on `count == 0` (integer division by zero); modelled as `none`.
The final `as u64` cast truncates, hence the `% 2^64`. -/
def Scale.avg (s : Scale) : Option Nat :=
  if s.count = 0 then none
  else some (((s.sum + u64MAX * s.power) / s.count) % 2 ^ 64)

/-- `struct Range { min_max: (u64, u64) }`; `.1` is the min, `.2` the max. -/
structure Range where
  min_max : Nat × Nat
deriving DecidableEq

/-- `Range::default` (src/lib.rs lines 87-94): `(u64::MAX - 1, 0)`. -/
def Range.default : Range := ⟨(u64MAX - 1, 0)⟩

/-- `Range::check` (src/lib.rs lines 72-78):
`if min > value { min = value } else if max < value { max = value }`. -/
def Range.check (r : Range) (value : Nat) : Range :=
  if r.min_max.1 > value then ⟨(value, r.min_max.2)⟩
  else if r.min_max.2 < value then ⟨(r.min_max.1, value)⟩
  else r

/-- `Range::check_in` (src/lib.rs lines 81-84):
`pp = ((max - min) as f32 / 200 * (100 - percentile as f32)).round() as u64;
min + pp <= value && max - pp >= value`.  The `f32` computation is modelled
exactly over the integers: for `percentile < 100` the margin is
`round(span * (100 - percentile) / 200)` with round half away from zero,
i.e. `(span * (100 - percentile) + 100) / 200`; a non-positive `f32` result
(`percentile ≥ 100`) casts to `0`.  The `u64` subtraction `max - min` and
the additions wrap as in release mode. -/
def Range.check_in (r : Range) (percentile : Nat) (value : Nat) : Bool :=
  let span := sub64 r.min_max.2 r.min_max.1
  let pp := if 100 ≤ percentile then 0 else (span * (100 - percentile) + 100) / 200
  decide (add64 r.min_max.1 pp ≤ value) && decide (value ≤ sub64 r.min_max.2 pp)

/-- `struct Config { percentiles: Vec<u8>, span_sec: u8, live_time_sec: u16 }` -/
structure Config where
  percentiles : List Nat
  span_sec : Nat
  live_time_sec : Nat
deriving DecidableEq

/-- `Config::default` (src/lib.rs lines 106-114). -/
def Config.default : Config := ⟨[], 1, 120⟩

/-- The four error strings of `Config::validate` (src/lib.rs lines 121-125). -/
def errP100 : String := "\x27percentile\x27 mut be less than 100%"

/-- Error string for a percentile not above 50. -/
def errP50 : String := "\x27percentile\x27 mut be great than 50%"

/-- Error string for a zero span. -/
def errSpan : String := "\x27span\x27 mut be great than 0"

/-- Error string for a lifetime not greater than the span. -/
def errLive : String := "\x27live_time_sec\x27 mut be great than \x27span\x27"

/-- `Config::append` (src/lib.rs lines 134-141): conditionally appends an
error message, separating from a non-empty prefix with `", "`. -/
def Config.appendMsg (msg : String) (cnd : Bool) (err : String) : String :=
  if cnd then (if msg.length > 0 then msg ++ ", " ++ err else msg ++ err) else msg

/-- `Config::validate` (src/lib.rs lines 118-131): accumulates all violated
conditions into one message and fails iff the message is non-empty. -/
def Config.validate (c : Config) : Except String Unit :=
  let msg := c.percentiles.foldl
    (fun m p => Config.appendMsg (Config.appendMsg m (decide (p ≥ 100)) errP100)
                  (decide (p ≤ 50)) errP50) ""
  let msg := Config.appendMsg msg (decide (c.span_sec = 0)) errSpan
  let msg := Config.appendMsg msg (decide (c.live_time_sec < c.span_sec + 1)) errLive
  if msg.length > 0 then Except.error msg else Except.ok ()

/-- The scanning loop of `Config::find` (src/lib.rs lines 145-153): starting
at `idx`, return `some` of the 1-based position of the first exact match. -/
def findLoop (percentile : Nat) : List Nat → Nat → Option Nat
  | [], _ => none
  | p :: ps, idx => if p = percentile then some idx else findLoop percentile ps (idx + 1)

/-- `Config::find` (src/lib.rs lines 143-165): a selector `> 10` is a literal
percentile looked up by exact match (1-based slot), a selector `≤ 10` is a
zero-based index into the percentile list (slot `index + 1`). -/
def Config.find (c : Config) (percentile : Nat) : Except String Nat :=
  if percentile > 10 then
    match findLoop percentile c.percentiles 1 with
    | some idx => Except.ok idx
    | none => Except.error ("cant find " ++ toString percentile ++ "% of "
        ++ toString c.percentiles.length)
  else if c.percentiles.length > 0 ∧ c.percentiles.length > percentile then
    Except.ok (percentile + 1)
  else
    Except.error ("cant find #" ++ toString percentile ++ " of "
        ++ toString c.percentiles.length)

/-- `struct Bucket { time: u32, scale: Vec<Scale>, range: Range }` -/
structure Bucket where
  time : Nat
  scale : List Scale
  range : Range
deriving DecidableEq

/-- `Bucket::new` (src/lib.rs lines 169-178): one zeroed slot-0 `Scale` and a
default range. -/
def Bucket.new (time : Nat) : Bucket :=
  { time, scale := [zeroScale], range := Range.default }

/-- `struct Histogram`: the `Instant` field is externalised (append takes the
elapsed seconds); the `VecDeque` is a list whose head is the front (newest)
and whose last element is the back (oldest). -/
structure Histogram where
  config : Config
  buckets : List Bucket
  range : Range
  range_lifetime : Range
deriving DecidableEq

/-- `Histogram::new` (src/lib.rs lines 194-202). -/
def Histogram.new (config : Config) : Histogram :=
  { config, buckets := [], range := Range.default, range_lifetime := Range.default }

/-- The `u64` → `u32` clamp of the elapsed seconds (src/lib.rs line 206). -/
def clamp32 (t : Nat) : Nat := if t ≥ u32MAX then u32MAX else t

/-- One iteration of the percentile loop (src/lib.rs lines 220-228) for a
given `percentile_id`: lazily push a zeroed slot, then append `value` to that
slot iff the (already widened) histogram range admits it.  `Vec` indexing is
modelled with `getD`/`set`; it is exercised in bounds (see claim C10). -/
def percStep (cfg : Config) (hrange : Range) (value : Nat) (b : Bucket)
    (pid : Nat) : Bucket :=
  let b := if b.scale.length ≤ pid then { b with scale := b.scale ++ [zeroScale] } else b
  if hrange.check_in (cfg.percentiles.getD (pid - 1) 0) value then
    { b with scale := b.scale.set pid ((b.scale.getD pid zeroScale).append value) }
  else b

/-- The percentile loop `for percentile_id in 1..percentiles.len()+1`. -/
def percLoop (cfg : Config) (hrange : Range) (value : Nat) (b : Bucket) : Bucket :=
  (List.range' 1 cfg.percentiles.length).foldl (percStep cfg hrange value) b

/-- Lines 213-218 of `Histogram::append`: feed `value` into the front
bucket's slot-0 `Scale` and widen the bucket's own range (the inlined copy
of `Range::check`).  `Vec` indexing is modelled with `getD`/`set`. -/
def bucketFeed (b : Bucket) (value : Nat) : Bucket :=
  let b := { b with scale := b.scale.set 0 ((b.scale.getD 0 zeroScale).append value) }
  { b with range :=
    if b.range.min_max.1 > value then ⟨(value, b.range.min_max.2)⟩
    else if b.range.min_max.2 < value then ⟨(b.range.min_max.1, value)⟩
    else b.range }

/-- Steps 1-6 of `Histogram::append` (src/lib.rs lines 204-228): clamp the
elapsed time, create a front bucket if none exists or the front is older than
`span_sec`, widen both histogram ranges, feed slot 0 and the bucket range
(`bucketFeed`), and run the percentile loop against the already-widened
histogram range. -/
def Histogram.appendCore (h : Histogram) (elapsed value : Nat) : Histogram :=
  let time := clamp32 elapsed
  let bs :=
    if h.buckets.length = 0 ∨
        sub32 time (h.buckets.headD (Bucket.new 0)).time > h.config.span_sec then
      Bucket.new time :: h.buckets
    else h.buckets
  let range := h.range.check value
  let range_lifetime := h.range_lifetime.check value
  { h with
    buckets := percLoop h.config range value (bucketFeed (bs.headD (Bucket.new time)) value)
      :: bs.tail
    range, range_lifetime }

/-- The range recomputation after an eviction (src/lib.rs lines 236-245):
fold over the remaining buckets starting from `Range::default`, lowering the
min and raising the max (two independent `if`s). -/
def evictRange (bs : List Bucket) : Range :=
  bs.foldl
    (fun r x =>
      let r := if x.range.min_max.1 < r.min_max.1 then ⟨(x.range.min_max.1, r.min_max.2)⟩ else r
      if x.range.min_max.2 > r.min_max.2 then ⟨(r.min_max.1, x.range.min_max.2)⟩ else r)
    Range.default

/-- Step 7 of `Histogram::append` (src/lib.rs lines 230-248): if more than
one bucket exists and the back (oldest) bucket's start offset exceeds
`live_time_sec`, pop it; if the popped bucket's own range strictly exceeded
the histogram range on either side, recompute the histogram range from the
survivors. -/
def Histogram.evictStep (h : Histogram) : Histogram :=
  if h.buckets.length > 1 ∧
      (h.buckets.getLastD (Bucket.new 0)).time > h.config.live_time_sec then
    let b := h.buckets.getLastD (Bucket.new 0)
    let bs := h.buckets.dropLast
    if b.range.min_max.1 < h.range.min_max.1 ∨ b.range.min_max.2 > h.range.min_max.2 then
      { h with buckets := bs, range := evictRange bs }
    else
      { h with buckets := bs }
  else h

/-- `Histogram::append` (src/lib.rs lines 204-250): the accumulation phase
followed by the eviction phase. -/
def Histogram.append (h : Histogram) (elapsed value : Nat) : Histogram :=
  (h.appendCore elapsed value).evictStep

/-- `Histogram::average` (src/lib.rs lines 252-255): midpoint of the window
range (the `u64` subtraction wraps in release mode when `max < min`, a state
reachable through the `Range::check` defect of claims C1/C2). -/
def Histogram.average (h : Histogram) : Nat :=
  let min := h.range.min_max.1
  add64 min (sub64 h.range.min_max.2 min / 2)

/-- `Histogram::average_lt` (src/lib.rs lines 257-260). -/
def Histogram.average_lt (h : Histogram) : Nat :=
  let min := h.range_lifetime.min_max.1
  add64 min (sub64 h.range_lifetime.min_max.2 min / 2)

/-- `Histogram::average_p` (src/lib.rs lines 263-270): resolve the selector,
merge the slot across all buckets with `Scale::add`, and average.  `none`
models the division-by-zero panic inside `Scale::avg`. -/
def Histogram.average_p (h : Histogram) (percentile : Nat) : Option (Except String Nat) :=
  match h.config.find percentile with
  | Except.error e => some (Except.error e)
  | Except.ok pid =>
    match (h.buckets.foldl (fun r b => r.add (b.scale.getD pid zeroScale)) zeroScale).avg with
    | none => none
    | some v => some (Except.ok v)

/-- `Histogram::buckets` (src/lib.rs lines 272-274). -/
def Histogram.bucketsCount (h : Histogram) : Nat := h.buckets.length

/-- `Histogram::sample_count` (src/lib.rs lines 276-282): sum of the slot-0
counts. -/
def Histogram.sample_count (h : Histogram) : Nat :=
  h.buckets.foldl (fun s b => s + (b.scale.getD 0 zeroScale).count) 0

/-- `Histogram::sample_count_p` (src/lib.rs lines 284-291). -/
def Histogram.sample_count_p (h : Histogram) (percentile : Nat) : Except String Nat :=
  match h.config.find percentile with
  | Except.error e => Except.error e
  | Except.ok pid =>
    Except.ok (h.buckets.foldl (fun s b => s + (b.scale.getD pid zeroScale).count) 0)

/-- Run a histogram from `Histogram::new` through a sequence of
`(elapsed, value)` append calls. -/
def run (c : Config) (tvs : List (Nat × Nat)) : Histogram :=
  tvs.foldl (fun h tv => h.append tv.1 tv.2) (Histogram.new c)

/-- Run a `Scale` from zero through a sequence of `Scale::append` calls. -/
def runScale (vs : List Nat) : Scale := vs.foldl Scale.append zeroScale

/-- Saturating increment at `u32::MAX`, the shape of every counter update
in `Scale::append`. -/
def satInc (n : Nat) : Nat := if n < u32MAX then n + 1 else n

/-- The count stored in slot `i` of a bucket (`0` beyond the slots). -/
def countOf (b : Bucket) (i : Nat) : Nat := (b.scale.getD i zeroScale).count

/-- `Histogram::append` instrumented with the bucket it evicts, if any;
its first component is exactly `Histogram.append`. -/
def Histogram.appendE (h : Histogram) (elapsed value : Nat) : Histogram × List Bucket :=
  let m := h.appendCore elapsed value
  (m.evictStep,
    if m.buckets.length > 1 ∧
        (m.buckets.getLastD (Bucket.new 0)).time > m.config.live_time_sec then
      [m.buckets.getLastD (Bucket.new 0)]
    else [])

/-- `run` instrumented with the list of all evicted buckets. -/
def runE (c : Config) (tvs : List (Nat × Nat)) : Histogram × List Bucket :=
  tvs.foldl (fun acc tv =>
    let s := acc.1.appendE tv.1 tv.2
    (s.1, acc.2 ++ s.2)) (Histogram.new c, [])

/-! ### Spec-side definitions (written from the claims, for comparison) -/

/-- The accumulation step as claim C3 words it: wrap only when adding the
value to `sum` would strictly exceed `u64::MAX`, otherwise add normally;
`count` and `wraps` saturate.  Written from the claim for comparison with
`Scale.append`. -/
def claimedScaleAppend (s : Scale) (value : Nat) : Scale :=
  let s :=
    if s.sum + value > u64MAX then
      { s with power := if s.power < u32MAX then s.power + 1 else s.power
               sum := value - (u64MAX - s.sum) }
    else
      { s with sum := s.sum + value }
  if s.count < u32MAX then { s with count := s.count + 1 } else s

/-- Join a list of messages with `", "` (the claim-C7 reading of the
combined error message). -/
def joinMsgs : List String → String
  | [] => ""
  | x :: [] => x
  | x :: y :: xs => x ++ ", " ++ joinMsgs (y :: xs)

/-- The violation messages produced by one percentile entry, in source
order (the `≥ 100` check precedes the `≤ 50` check). -/
def percMsgs : List Nat → List String
  | [] => []
  | p :: ps => (if p ≥ 100 then [errP100] else []) ++ (if p ≤ 50 then [errP50] else [])
      ++ percMsgs ps

/-- All violation messages of a configuration, in source order. -/
def specViolations (c : Config) : List String :=
  percMsgs c.percentiles ++ (if c.span_sec = 0 then [errSpan] else [])
    ++ (if c.live_time_sec < c.span_sec + 1 then [errLive] else [])

/-- Validation as claim C7 words it: succeed iff no condition is violated,
otherwise fail with all violated conditions joined by `", "`. -/
def specValidate (c : Config) : Except String Unit :=
  if specViolations c = [] then Except.ok () else Except.error (joinMsgs (specViolations c))

/-- The message-joining step of `Config::append` when the condition holds:
separate from a non-empty prefix with `", "`. -/
def stepJ (msg e : String) : String :=
  if msg.length > 0 then msg ++ ", " ++ e else msg ++ e

/-- Folding `stepJ` over a list of messages. -/
def mfold (msg : String) (l : List String) : String := l.foldl stepJ msg

/-- Zero-based position of the first exact match (claim C8's reading of the
scan in `Config::find`). -/
def firstPos (percentile : Nat) : List Nat → Option Nat
  | [] => none
  | q :: qs => if q = percentile then some 0 else (firstPos percentile qs).map (· + 1)

/-- Minimum of a list of naturals, empty list defaulting to `u64::MAX - 1`
(claim C5's "overall min" over the remaining buckets). -/
def listMinD : List Nat → Nat
  | [] => u64MAX - 1
  | x :: xs => xs.foldl min x

/-- Maximum of a list of naturals, empty list defaulting to `0`
(claim C5's "overall max" over the remaining buckets). -/
def listMaxD : List Nat → Nat
  | [] => 0
  | x :: xs => xs.foldl max x

/-- The sum of the counts of the percentile slots (slots 1 and above) of a
bucket, as in claim C9. -/
def percCountSum (b : Bucket) : Nat :=
  ((b.scale.drop 1).map (fun s => s.count)).sum

/-- The eviction condition of `Histogram::evictStep`, named for the claim
C5 statement. -/
def evictCond (h : Histogram) : Prop :=
  h.buckets.length > 1 ∧
    (h.buckets.getLastD (Bucket.new 0)).time > h.config.live_time_sec

instance (h : Histogram) : Decidable (evictCond h) := by
  unfold evictCond; infer_instance

/-- A concrete histogram state exercising the eviction phase: two buckets,
the oldest overdue and holding both extrema. -/
def evictW : Histogram :=
  { config := ⟨[], 1, 3⟩
    buckets := [⟨8, [zeroScale], ⟨(5, 10)⟩⟩, ⟨4, [zeroScale], ⟨(3, 12)⟩⟩]
    range := ⟨(5, 10)⟩
    range_lifetime := ⟨(5, 10)⟩ }

/-- Every bucket carries one `Scale` slot per configured percentile plus the
slot-0 accumulator (the claim C10 invariant). -/
def slotInv (h : Histogram) : Prop :=
  ∀ b ∈ h.buckets, b.scale.length = h.config.percentiles.length + 1

/-- In every bucket, no slot's count exceeds the slot-0 count (the claim C9
per-bucket count invariant). -/
def countInv (h : Histogram) : Prop :=
  ∀ b ∈ h.buckets, ∀ i, countOf b i ≤ countOf b 0

/-- Every bucket has at least its slot-0 `Scale` (all reachable states do). -/
def scaleNE (h : Histogram) : Prop :=
  ∀ b ∈ h.buckets, 1 ≤ b.scale.length

/-! ### Helper lemmas about Scale -/

theorem Scale.append_eq (s : Scale) (v : Nat) :
    s.append v =
      { sum := if v ≥ u64MAX - s.sum then v - (u64MAX - s.sum) else s.sum + v
        power := if v ≥ u64MAX - s.sum then
            (if s.power < u32MAX then s.power + 1 else s.power) else s.power
        count := if s.count < u32MAX then s.count + 1 else s.count } := by
  unfold Scale.append
  by_cases h1 : v ≥ u64MAX - s.sum <;> by_cases h2 : s.count < u32MAX <;>
    simp [h1, h2]

theorem scale_power_mono (s : Scale) (v : Nat) : s.power ≤ (s.append v).power := by
  rw [Scale.append_eq]
  dsimp only
  split
  · split <;> omega
  · omega

theorem foldl_power_mono (vs : List Nat) : ∀ s : Scale,
    s.power ≤ (vs.foldl Scale.append s).power := by
  induction vs with
  | nil => intro s; simp
  | cons v vs ih =>
      intro s
      simpa using le_trans (scale_power_mono s v) (ih (s.append v))

theorem scale_sum_le (s : Scale) (v : Nat) (hs : s.sum ≤ u64MAX) (hv : v ≤ u64MAX) :
    (s.append v).sum ≤ u64MAX := by
  rw [Scale.append_eq]
  dsimp only
  split <;> omega

theorem scale_total (s : Scale) (v : Nat) (hp : s.power < u32MAX)
    (hs : s.sum ≤ u64MAX) :
    (s.append v).sum + (s.append v).power * u64MAX = s.sum + v + s.power * u64MAX := by
  rw [Scale.append_eq]
  dsimp only
  by_cases h1 : v ≥ u64MAX - s.sum
  · simp only [if_pos h1, if_pos hp, Nat.succ_mul]
    omega
  · simp only [if_neg h1]

theorem foldl_sum_le (vs : List Nat) : ∀ s : Scale, s.sum ≤ u64MAX →
    (∀ v ∈ vs, v ≤ u64MAX) → (vs.foldl Scale.append s).sum ≤ u64MAX := by
  induction vs with
  | nil => intro s hs _; simpa using hs
  | cons v vs ih =>
      intro s hs hv
      simp only [List.foldl_cons]
      exact ih _ (scale_sum_le s v hs (hv v (by simp)))
        (fun x hx => hv x (by simp [hx]))

theorem foldl_total (vs : List Nat) : ∀ s : Scale, s.sum ≤ u64MAX →
    (∀ v ∈ vs, v ≤ u64MAX) → (vs.foldl Scale.append s).power < u32MAX →
    (vs.foldl Scale.append s).sum + (vs.foldl Scale.append s).power * u64MAX
      = s.sum + s.power * u64MAX + vs.sum := by
  induction vs with
  | nil => intro s _ _ _; simp
  | cons v vs ih =>
      intro s hs hv hpow
      simp only [List.foldl_cons] at hpow ⊢
      have hp1 : (s.append v).power < u32MAX :=
        lt_of_le_of_lt (foldl_power_mono vs (s.append v)) hpow
      have hp : s.power < u32MAX := lt_of_le_of_lt (scale_power_mono s v) hp1
      have hih := ih (s.append v) (scale_sum_le s v hs (hv v (by simp)))
        (fun x hx => hv x (by simp [hx])) hpow
      rw [hih, scale_total s v hp hs, List.sum_cons]
      omega

theorem foldl_count (vs : List Nat) : ∀ s : Scale, s.count ≤ u32MAX →
    (vs.foldl Scale.append s).count = min (s.count + vs.length) u32MAX := by
  induction vs with
  | nil => intro s hs; simp; omega
  | cons v vs ih =>
      intro s hs
      simp only [List.foldl_cons, List.length_cons]
      have hc : (s.append v).count = if s.count < u32MAX then s.count + 1 else s.count := by
        rw [Scale.append_eq]
      rw [ih (s.append v) (by rw [hc]; split <;> omega), hc]
      split <;> omega

theorem listSum_le (vs : List Nat) (hv : ∀ v ∈ vs, v ≤ u64MAX) :
    vs.sum ≤ vs.length * u64MAX := by
  induction vs with
  | nil => simp
  | cons v vs ih =>
      simp only [List.sum_cons, List.length_cons, Nat.succ_mul]
      have h1 : v ≤ u64MAX := hv v (by simp)
      have h2 := ih (fun x hx => hv x (by simp [hx]))
      omega

/-! ### Claim theorems -/

/-- C1: the claim says `window_range`/`lifetime_range` track the exact
min/max of the appended values.  The code violates it: a single
`append(5)` on a fresh default histogram leaves both ranges at `(5, 0)`
(the `else if` in `Range::check` skips the max update when the min branch
fires), and a single `append(u64::MAX)` leaves the min at the sentinel
`u64::MAX - 1`. -/
theorem C1_range_tracking_violated :
    (run Config.default [(0, 5)]).range.min_max = (5, 0) ∧
    (run Config.default [(0, 5)]).range_lifetime.min_max = (5, 0) ∧
    (run Config.default [(0, u64MAX)]).range_lifetime.min_max = (u64MAX - 1, u64MAX) := by
  refine ⟨by decide, by decide, by decide⟩

/-- C2: the claim says widening a default `Range` with `v` yields
`min = max = v`, and `min ≤ max` afterwards.  The code violates it:
`Range::default.check 5` yields `(5, 0)`, whose max is below its min. -/
theorem C2_default_widen_violated :
    (Range.default.check 5).min_max = (5, 0) ∧
    (Range.default.check 5).min_max.2 < (Range.default.check 5).min_max.1 := by
  refine ⟨by decide, by decide⟩

/-- C4: the claim bounds `buckets()` by `live_time_sec / span_sec + 1`.
The code violates it: with `span_sec = 1`, `live_time_sec = 3`, appends at
elapsed seconds 0, 2, 4, 6, 8 leave five buckets (the back bucket's start
offset 0 never exceeds 3, so it is never evicted), exceeding the bound 4. -/
theorem C4_bucket_bound_violated :
    (run ⟨[], 1, 3⟩ [(0, 0), (2, 0), (4, 0), (6, 0), (8, 0)]).bucketsCount = 5 ∧
    ¬ ((run ⟨[], 1, 3⟩ [(0, 0), (2, 0), (4, 0), (6, 0), (8, 0)]).bucketsCount ≤ 3 / 1 + 1) := by
  refine ⟨by decide, by decide⟩

/-- C6: the claim says a successfully resolved percentile with zero samples
makes `average_p` return a recoverable error.  The code violates it: with
`percentiles = [95]` and no appends, `find 95` succeeds with slot 1, the
merged `Scale` has `count = 0`, and `Scale::avg` divides by zero — a panic
(modelled as `none`), not a returned error. -/
theorem C6_zero_sample_divide_panic :
    Config.find ⟨[95], 1, 100⟩ 95 = Except.ok 1 ∧
    (Histogram.new ⟨[95], 1, 100⟩).average_p 95 = none := by
  refine ⟨by decide, by decide⟩

/-- C3 counterexample: the claim wraps only when `sum + value` would
strictly exceed `u64::MAX`, but `Scale::append` also wraps at exactly
`u64::MAX`: appending `u64::MAX` to a zeroed `Scale` yields
`{sum = 0, power = 1}` where the claim's wording yields
`{sum = u64::MAX, power = 0}`. -/
theorem C3_counterexample :
    Scale.append zeroScale u64MAX ≠ claimedScaleAppend zeroScale u64MAX := by
  decide

/-- C8 counterexample: for the configured entry `5` at first-occurrence
position `0`, the claim requires `find 5` and `find 0` to resolve to the
same slot `1`; but `5 ≤ 10` is treated as an index, so `find 5` errors
while `find 0` succeeds. -/
theorem C8_counterexample :
    Config.find ⟨[5], 1, 120⟩ 0 = Except.ok 1 ∧
    Config.find ⟨[5], 1, 120⟩ 5 ≠ Except.ok 1 := by
  refine ⟨by decide, by decide⟩

/-- C9 counterexample: with two configured percentiles both admitting the
first value, the sum of the percentile-slot counts (2) exceeds the slot-0
count (1) in the front bucket. -/
theorem C9_counterexample :
    (run ⟨[95, 96], 1, 120⟩ [(0, 0)]).buckets.headD (Bucket.new 0)
        ∈ (run ⟨[95, 96], 1, 120⟩ [(0, 0)]).buckets ∧
    ¬ (percCountSum ((run ⟨[95, 96], 1, 120⟩ [(0, 0)]).buckets.headD (Bucket.new 0))
        ≤ (((run ⟨[95, 96], 1, 120⟩ [(0, 0)]).buckets.headD (Bucket.new 0)).scale.getD 0
            zeroScale).count) := by
  refine ⟨by decide, by decide⟩

/-- C3 (amended): `Scale::append` wraps when the running sum would reach or
exceed `u64::MAX` (the claim said strictly exceed — see the counterexample),
increments `wraps` and `count` saturating at `u32::MAX`, and never panics or
truncates: over any sequence of `u64` values in which neither counter
saturates, the final state satisfies `sum + wraps * u64::MAX = Σ values`
exactly, the residual sum is representable, and `avg` returns
`Σ values / count` computed exactly (the 128-bit intermediate cannot
truncate). -/
theorem C3_running_sum (vs : List Nat) (hv : ∀ v ∈ vs, v ≤ u64MAX)
    (hlen : vs.length < u32MAX) (hpow : (runScale vs).power < u32MAX) :
    (runScale vs).count = vs.length ∧
    (runScale vs).sum ≤ u64MAX ∧
    (runScale vs).sum + (runScale vs).power * u64MAX = vs.sum ∧
    (vs ≠ [] → (runScale vs).avg = some (vs.sum / vs.length) ∧
      vs.sum / vs.length ≤ u64MAX) := by
  have hcount : (runScale vs).count = vs.length := by
    unfold runScale
    rw [foldl_count vs zeroScale (Nat.zero_le _)]
    show min (0 + vs.length) u32MAX = vs.length
    omega
  have hsum : (runScale vs).sum ≤ u64MAX :=
    foldl_sum_le vs zeroScale (Nat.zero_le _) hv
  have htot' : (runScale vs).sum + (runScale vs).power * u64MAX = vs.sum := by
    unfold runScale
    rw [foldl_total vs zeroScale (Nat.zero_le _) hv hpow]
    show 0 + 0 * u64MAX + vs.sum = vs.sum
    omega
  refine ⟨hcount, hsum, htot', ?_⟩
  intro hne
  have hlenpos : 0 < vs.length := List.length_pos.mpr hne
  have hq : vs.sum / vs.length ≤ u64MAX := by
    calc vs.sum / vs.length ≤ vs.length * u64MAX / vs.length :=
          Nat.div_le_div_right (listSum_le vs hv)
      _ = u64MAX := Nat.mul_div_cancel_left _ hlenpos
  refine ⟨?_, hq⟩
  unfold Scale.avg
  rw [if_neg (by omega : ¬ (runScale vs).count = 0)]
  congr 1
  have hmul : (runScale vs).sum + u64MAX * (runScale vs).power = vs.sum := by
    rw [Nat.mul_comm]
    exact htot'
  rw [hmul, hcount]
  exact Nat.mod_eq_of_lt (lt_of_le_of_lt hq (by decide))

/-- C3 witness: the amended theorem applied to the concrete sequence
`[u64::MAX, 5]` whose first append wraps. -/
theorem C3_running_sum_witness :
    (runScale [u64MAX, 5]).count = 2 ∧
    (runScale [u64MAX, 5]).sum + (runScale [u64MAX, 5]).power * u64MAX
      = List.sum [u64MAX, 5] ∧
    (runScale [u64MAX, 5]).avg = some (List.sum [u64MAX, 5] / 2) := by
  have h := C3_running_sum [u64MAX, 5] (by decide) (by decide) (by decide)
  refine ⟨?_, h.2.2.1, ?_⟩
  · simpa using h.1
  · simpa using (h.2.2.2 (by decide)).1

theorem findLoop_eq (p : Nat) : ∀ (l : List Nat) (k : Nat),
    findLoop p l k = (firstPos p l).map (· + k) := by
  intro l
  induction l with
  | nil => intro k; rfl
  | cons q qs ih =>
      intro k
      by_cases h : q = p
      · simp [findLoop, firstPos, h]
      · simp only [findLoop, firstPos, if_neg h]
        rw [ih (k + 1)]
        cases hf : firstPos p qs with
        | none => simp [hf]
        | some a => simp [hf]; omega

theorem firstPos_lt_length (p : Nat) : ∀ (l : List Nat) (i : Nat),
    firstPos p l = some i → i < l.length := by
  intro l
  induction l with
  | nil => intro i h; simp [firstPos] at h
  | cons q qs ih =>
      intro i h
      by_cases hq : q = p
      · simp [firstPos, hq] at h
        simp [List.length_cons]
        omega
      · simp only [firstPos, if_neg hq] at h
        cases hf : firstPos p qs with
        | none => rw [hf] at h; simp at h
        | some j =>
            rw [hf] at h
            simp at h
            have := ih j hf
            simp [List.length_cons]
            omega

/-- C8 (amended): a selector above 10 is looked up as a literal percentile
(first exact match, slot `position + 1`, error when absent), a selector at
most 10 is a zero-based index (slot `index + 1` exactly when in range,
error otherwise); consequently, for a configured entry `p > 10` whose first
occurrence is at position `i ≤ 10`, `find p` and `find i` resolve to the
same slot `i + 1`.  (The claim without `p > 10` fails — see the
counterexample.) -/
theorem C8_find_resolution (c : Config) (p i : Nat) :
    (p > 10 → firstPos p c.percentiles = some i → c.find p = Except.ok (i + 1)) ∧
    (p > 10 → firstPos p c.percentiles = none →
      c.find p = Except.error ("cant find " ++ toString p ++ "% of "
          ++ toString c.percentiles.length)) ∧
    (p ≤ 10 → (c.find p = Except.ok (p + 1) ↔ p < c.percentiles.length)) ∧
    (p ≤ 10 → ¬ p < c.percentiles.length →
      c.find p = Except.error ("cant find #" ++ toString p ++ " of "
          ++ toString c.percentiles.length)) ∧
    (p > 10 → i ≤ 10 → firstPos p c.percentiles = some i →
      c.find p = Except.ok (i + 1) ∧ c.find i = Except.ok (i + 1)) := by
  have hok : ∀ hp : p > 10, firstPos p c.percentiles = some i →
      c.find p = Except.ok (i + 1) := by
    intro hp hf
    simp [Config.find, hp, findLoop_eq, hf]
  have hidx : ∀ j : Nat, j ≤ 10 → j < c.percentiles.length →
      c.find j = Except.ok (j + 1) := by
    intro j hj hlt
    have : ¬ j > 10 := by omega
    simp [Config.find, this]
    omega
  refine ⟨hok, ?_, ?_, ?_, ?_⟩
  · intro hp hf
    simp [Config.find, hp, findLoop_eq, hf]
  · intro hple
    have hngt : ¬ p > 10 := by omega
    constructor
    · intro hfind
      by_contra hge
      simp [Config.find, hngt, show ¬ (c.percentiles.length > 0 ∧
        c.percentiles.length > p) by omega] at hfind
    · intro hlt
      exact hidx p hple hlt
  · intro hple hge
    have hngt : ¬ p > 10 := by omega
    simp [Config.find, hngt]
    omega
  · intro hp hi hf
    exact ⟨hok hp hf, hidx i hi (firstPos_lt_length p c.percentiles i hf)⟩

/-- C8 witness: with `percentiles = [95]`, `find 95` (literal) and `find 0`
(index) both resolve to slot 1. -/
theorem C8_find_resolution_witness :
    Config.find ⟨[95], 1, 100⟩ 95 = Except.ok 1 ∧
    Config.find ⟨[95], 1, 100⟩ 0 = Except.ok 1 := by
  have h := (C8_find_resolution ⟨[95], 1, 100⟩ 95 0).2.2.2.2
    (by decide) (by decide) (by decide)
  exact ⟨h.1, h.2⟩

theorem mfold_append (m : String) (a b : List String) :
    mfold m (a ++ b) = mfold (mfold m a) b :=
  List.foldl_append stepJ m a b

theorem appendMsg_mfold (m : String) (cnd : Prop) [Decidable cnd] (e : String) :
    Config.appendMsg m (decide cnd) e = mfold m (if cnd then [e] else []) := by
  by_cases h : cnd <;> simp [Config.appendMsg, mfold, stepJ, h, List.foldl]

theorem perc_fold_eq (ps : List Nat) : ∀ m : String,
    ps.foldl (fun m p => Config.appendMsg (Config.appendMsg m (decide (p ≥ 100)) errP100)
      (decide (p ≤ 50)) errP50) m = mfold m (percMsgs ps) := by
  induction ps with
  | nil => intro m; rfl
  | cons p ps ih =>
      intro m
      simp only [List.foldl_cons, percMsgs]
      rw [ih, mfold_append, appendMsg_mfold, appendMsg_mfold, mfold_append]

theorem mfold_pos (l : List String) : ∀ m : String, (∀ e ∈ l, 0 < e.length) →
    0 < m.length → mfold m l = joinMsgs (m :: l) := by
  induction l with
  | nil => intro m _ _; rfl
  | cons e rest ih =>
      intro m hl hm
      have hstep : stepJ m e = m ++ ", " ++ e := by
        simp [stepJ, hm]
      have hlen : 0 < (m ++ ", " ++ e).length := by
        simp [String.length_append]
        omega
      have : mfold m (e :: rest) = mfold (m ++ ", " ++ e) rest := by
        simp only [mfold, List.foldl_cons, hstep]
      rw [this, ih _ (fun x hx => hl x (by simp [hx])) hlen]
      cases rest with
      | nil => rfl
      | cons y ys =>
          show (m ++ ", " ++ e) ++ ", " ++ joinMsgs (y :: ys)
            = m ++ ", " ++ (e ++ ", " ++ joinMsgs (y :: ys))
          simp [String.append_assoc]

theorem mfold_empty (l : List String) (hl : ∀ e ∈ l, 0 < e.length) :
    mfold "" l = joinMsgs l := by
  cases l with
  | nil => rfl
  | cons e rest =>
      have hstep : stepJ "" e = e := by
        simp [stepJ]
      have : mfold "" (e :: rest) = mfold e rest := by
        simp only [mfold, List.foldl_cons, hstep]
      rw [this]
      exact mfold_pos rest e (fun x hx => hl x (by simp [hx])) (hl e (by simp))

theorem joinMsgs_len_pos (l : List String) (hl : ∀ e ∈ l, 0 < e.length)
    (hne : l ≠ []) : 0 < (joinMsgs l).length := by
  cases l with
  | nil => exact absurd rfl hne
  | cons x xs =>
      cases xs with
      | nil => exact hl x (by simp)
      | cons y ys =>
          show 0 < (x ++ ", " ++ joinMsgs (y :: ys)).length
          have := hl x (by simp)
          simp [String.length_append]
          omega

theorem percMsgs_mem (ps : List Nat) : ∀ e ∈ percMsgs ps, e = errP100 ∨ e = errP50 := by
  induction ps with
  | nil => intro e he; simp [percMsgs] at he
  | cons p ps ih =>
      intro e he
      simp only [percMsgs, List.mem_append] at he
      rcases he with (h | h) | h
      · left
        split at h <;> simp_all
      · right
        split at h <;> simp_all
      · exact ih e h

theorem specViolations_pos (c : Config) : ∀ e ∈ specViolations c, 0 < e.length := by
  intro e he
  simp only [specViolations, List.mem_append] at he
  rcases he with (h | h) | h
  · rcases percMsgs_mem c.percentiles e h with h' | h' <;> rw [h'] <;> decide
  · by_cases hs : c.span_sec = 0
    · rw [if_pos hs] at h
      simp at h
      rw [h]
      decide
    · rw [if_neg hs] at h
      simp at h
  · by_cases hl : c.live_time_sec < c.span_sec + 1
    · rw [if_pos hl] at h
      simp at h
      rw [h]
      decide
    · rw [if_neg hl] at h
      simp at h

theorem percMsgs_nil (ps : List Nat) :
    percMsgs ps = [] ↔ ∀ p ∈ ps, 50 < p ∧ p < 100 := by
  induction ps with
  | nil => simp [percMsgs]
  | cons p ps ih =>
      have hsplit : percMsgs (p :: ps) = [] ↔
          ((¬ p ≥ 100) ∧ (¬ p ≤ 50) ∧ percMsgs ps = []) := by
        by_cases h1 : p ≥ 100 <;> by_cases h2 : p ≤ 50 <;>
          simp [percMsgs, h1, h2]
      rw [hsplit, ih]
      constructor
      · rintro ⟨h1, h2, h3⟩ x hx
        rcases List.mem_cons.mp hx with rfl | hx
        · omega
        · exact h3 x hx
      · intro h
        have hp := h p (by simp)
        exact ⟨by omega, by omega, fun x hx => h x (by simp [hx])⟩

theorem specViolations_nil (c : Config) :
    specViolations c = [] ↔ ((∀ p ∈ c.percentiles, 50 < p ∧ p < 100) ∧
      c.span_sec ≠ 0 ∧ c.span_sec < c.live_time_sec) := by
  have hsplit : specViolations c = [] ↔ (percMsgs c.percentiles = [] ∧
      ¬ c.span_sec = 0 ∧ ¬ c.live_time_sec < c.span_sec + 1) := by
    by_cases h1 : c.span_sec = 0 <;> by_cases h2 : c.live_time_sec < c.span_sec + 1 <;>
      simp [specViolations, h1, h2]
  rw [hsplit, percMsgs_nil]
  constructor
  · rintro ⟨h1, h2, h3⟩
    exact ⟨h1, h2, by omega⟩
  · rintro ⟨h1, h2, h3⟩
    exact ⟨h1, h2, by omega⟩

/-- C7: `Config::validate` succeeds exactly when every configured percentile
lies strictly between 50 and 100, the span is non-zero, and the lifetime
strictly exceeds the span; otherwise it returns the single message joining
all violated conditions with `", "` in source order, never stopping at the
first violation. -/
theorem C7_validate (c : Config) :
    Config.validate c = specValidate c ∧
    (Config.validate c = Except.ok () ↔
      ((∀ p ∈ c.percentiles, 50 < p ∧ p < 100) ∧ c.span_sec ≠ 0 ∧
        c.span_sec < c.live_time_sec)) := by
  have hmsg : Config.validate c =
      (if (mfold "" (specViolations c)).length > 0
        then Except.error (mfold "" (specViolations c)) else Except.ok ()) := by
    simp only [Config.validate]
    rw [perc_fold_eq, appendMsg_mfold, appendMsg_mfold, ← mfold_append, ← mfold_append]
    unfold specViolations
    rw [List.append_assoc]
  have hpos := specViolations_pos c
  by_cases hv : specViolations c = []
  · have hok : Config.validate c = Except.ok () := by
      rw [hmsg, hv]
      rfl
    refine ⟨?_, ?_⟩
    · rw [hok]
      unfold specValidate
      rw [if_pos hv]
    · rw [hok]
      constructor
      · intro _
        exact (specViolations_nil c).mp hv
      · intro _
        rfl
  · have hjoin : mfold "" (specViolations c) = joinMsgs (specViolations c) :=
      mfold_empty _ hpos
    have hlen : 0 < (joinMsgs (specViolations c)).length :=
      joinMsgs_len_pos _ hpos hv
    have herr : Config.validate c = Except.error (joinMsgs (specViolations c)) := by
      rw [hmsg, hjoin, if_pos hlen]
    refine ⟨?_, ?_⟩
    · rw [herr]
      unfold specValidate
      rw [if_neg hv]
    · rw [herr]
      constructor
      · intro h
        exact absurd h (by simp)
      · intro h
        exact absurd ((specViolations_nil c).mpr h) hv

/-- C7 witness: the characterization applied to a concrete configuration
violating all four conditions. -/
theorem C7_validate_witness :
    Config.validate ⟨[50, 100], 0, 0⟩ = specValidate ⟨[50, 100], 0, 0⟩ ∧
    ¬ Config.validate ⟨[50, 100], 0, 0⟩ = Except.ok () := by
  have h := C7_validate ⟨[50, 100], 0, 0⟩
  refine ⟨h.1, ?_⟩
  intro hok
  have := h.2.mp hok
  have h50 := this.1 50 (by simp)
  omega

/-! ### Helper lemmas about slots and the append phases -/

theorem sgetD_set_ne (l : List Scale) (i j : Nat) (x : Scale) (h : i ≠ j) :
    (l.set i x).getD j zeroScale = l.getD j zeroScale := by
  rw [List.getD_eq_getElem?_getD, List.getD_eq_getElem?_getD, List.getElem?_set_ne h]

theorem sgetD_set_self (l : List Scale) (i : Nat) (x : Scale) (h : i < l.length) :
    (l.set i x).getD i zeroScale = x := by
  rw [List.getD_eq_getElem?_getD, List.getElem?_set_self h]
  rfl

theorem sgetD_append_lt (l l2 : List Scale) (j : Nat) (h : j < l.length) :
    (l ++ l2).getD j zeroScale = l.getD j zeroScale :=
  List.getD_append l l2 zeroScale j h

theorem sgetD_append_last (l : List Scale) (x : Scale) :
    (l ++ [x]).getD l.length zeroScale = x := by
  rw [List.getD_eq_getElem?_getD, List.getElem?_append_right (le_refl _)]
  simp

theorem sgetD_default (l : List Scale) (j : Nat) (h : l.length ≤ j) :
    l.getD j zeroScale = zeroScale :=
  List.getD_eq_default l zeroScale h

theorem percStep_length (cfg : Config) (r : Range) (v : Nat) (b : Bucket) (pid : Nat)
    (h : pid ≤ b.scale.length) :
    (percStep cfg r v b pid).scale.length = max b.scale.length (pid + 1) := by
  simp only [percStep]
  by_cases hc : b.scale.length ≤ pid
  · simp only [if_pos hc]
    split
    · simp only [List.length_set, List.length_append, List.length_cons, List.length_nil]
      omega
    · simp only [List.length_append, List.length_cons, List.length_nil]
      omega
  · simp only [if_neg hc]
    split
    · simp only [List.length_set]
      omega
    · omega

theorem percLoop_length_aux (cfg : Config) (r : Range) (v : Nat) :
    ∀ (k i : Nat) (b : Bucket), 1 ≤ i → i ≤ b.scale.length →
    ((List.range' i k).foldl (percStep cfg r v) b).scale.length
      = max b.scale.length (i + k) := by
  intro k
  induction k with
  | zero => intro i b h1 h2; simp; omega
  | succ k ih =>
      intro i b h1 h2
      have hr : List.range' i (k + 1) = i :: List.range' (i + 1) k := rfl
      rw [hr]
      simp only [List.foldl_cons]
      have hlen := percStep_length cfg r v b i h2
      rw [ih (i + 1) _ (by omega) (by rw [hlen]; omega), hlen]
      omega

theorem percLoop_length (cfg : Config) (r : Range) (v : Nat) (b : Bucket)
    (hb : 1 ≤ b.scale.length) :
    (percLoop cfg r v b).scale.length
      = max b.scale.length (cfg.percentiles.length + 1) := by
  unfold percLoop
  rw [percLoop_length_aux cfg r v cfg.percentiles.length 1 b (le_refl 1) hb]
  omega

theorem bucketFeed_length (b : Bucket) (v : Nat) :
    (bucketFeed b v).scale.length = b.scale.length := by
  simp [bucketFeed, List.length_set]

theorem evictStep_config (h : Histogram) : h.evictStep.config = h.config := by
  unfold Histogram.evictStep
  split
  · dsimp only
    split <;> rfl
  · rfl

theorem append_config (h : Histogram) (t v : Nat) : (h.append t v).config = h.config :=
  evictStep_config _

theorem headD_mem (l : List Bucket) (d : Bucket) (h : l ≠ []) : l.headD d ∈ l := by
  cases l with
  | nil => exact absurd rfl h
  | cons a as => simp

theorem evictStep_subset (h : Histogram) : h.evictStep.buckets ⊆ h.buckets := by
  unfold Histogram.evictStep
  split
  · dsimp only
    split
    · exact fun x hx => List.dropLast_subset _ hx
    · exact fun x hx => List.dropLast_subset _ hx
  · exact fun x hx => hx

theorem appendCore_buckets_mem (h : Histogram) (t v : Nat) :
    ∀ b ∈ (h.appendCore t v).buckets,
      (∃ b0, (b0 = Bucket.new (clamp32 t) ∨ b0 ∈ h.buckets) ∧
        b = percLoop h.config (h.range.check v) v (bucketFeed b0 v)) ∨
      b ∈ h.buckets := by
  intro b hb
  simp only [Histogram.appendCore] at hb
  by_cases hc : (h.buckets.length = 0 ∨
      sub32 (clamp32 t) (h.buckets.headD (Bucket.new 0)).time > h.config.span_sec)
  · simp only [if_pos hc] at hb
    rcases List.mem_cons.mp hb with rfl | hb
    · left
      exact ⟨Bucket.new (clamp32 t), Or.inl rfl, rfl⟩
    · right
      exact hb
  · simp only [if_neg hc] at hb
    have hne : h.buckets ≠ [] := by
      intro hnil
      exact hc (Or.inl (by simp [hnil]))
    rcases List.mem_cons.mp hb with rfl | hb
    · left
      exact ⟨h.buckets.headD (Bucket.new (clamp32 t)), Or.inr (headD_mem _ _ hne), rfl⟩
    · right
      exact List.mem_of_mem_tail hb

theorem appendCore_slotInv (h : Histogram) (t v : Nat) (hinv : slotInv h) :
    slotInv (h.appendCore t v) := by
  intro b hb
  show b.scale.length = h.config.percentiles.length + 1
  rcases appendCore_buckets_mem h t v b hb with ⟨b0, hb0, rfl⟩ | hb'
  · have hb0len : b0.scale.length = 1 ∨ b0.scale.length = h.config.percentiles.length + 1 := by
      rcases hb0 with rfl | hmem
      · left; rfl
      · right; exact hinv b0 hmem
    have h1 : 1 ≤ b0.scale.length := by rcases hb0len with h' | h' <;> omega
    rw [percLoop_length _ _ _ _ (by rw [bucketFeed_length]; exact h1), bucketFeed_length]
    rcases hb0len with h' | h' <;> rw [h'] <;> omega
  · exact hinv b hb'

theorem append_slotInv (h : Histogram) (t v : Nat) (hinv : slotInv h) :
    slotInv (h.append t v) := by
  intro b hb
  have hb' : b ∈ (h.appendCore t v).buckets := evictStep_subset _ hb
  have hlen := appendCore_slotInv h t v hinv b hb'
  show b.scale.length = (h.append t v).config.percentiles.length + 1
  rw [append_config]
  exact hlen

theorem findLoop_bounds (p : Nat) : ∀ (l : List Nat) (k i : Nat),
    findLoop p l k = some i → k ≤ i ∧ i < k + l.length := by
  intro l
  induction l with
  | nil => intro k i h; simp [findLoop] at h
  | cons q qs ih =>
      intro k i h
      simp only [findLoop] at h
      by_cases hq : q = p
      · rw [if_pos hq] at h
        simp at h
        simp [List.length_cons]
        omega
      · rw [if_neg hq] at h
        have := ih (k + 1) i h
        simp [List.length_cons]
        omega

theorem find_ok_bounds (c : Config) (p pid : Nat) (h : c.find p = Except.ok pid) :
    1 ≤ pid ∧ pid ≤ c.percentiles.length := by
  unfold Config.find at h
  by_cases hp : p > 10
  · rw [if_pos hp] at h
    cases hf : findLoop p c.percentiles 1 with
    | none => rw [hf] at h; simp at h
    | some idx =>
        rw [hf] at h
        simp at h
        have := findLoop_bounds p c.percentiles 1 idx hf
        omega
  · rw [if_neg hp] at h
    by_cases hc : c.percentiles.length > 0 ∧ c.percentiles.length > p
    · rw [if_pos hc] at h
      simp at h
      omega
    · rw [if_neg hc] at h
      simp at h

/-- C10: every bucket holds exactly `percentiles.len() + 1` slots after any
append (slot 0 plus one slot per configured percentile, all created during
the bucket's first append), `Histogram::new` trivially satisfies the
invariant, and any slot index accepted by `Config::find` lies strictly
inside every bucket's slot vector, so the indexing done by `average_p` and
`sample_count_p` cannot go out of bounds. -/
theorem C10_slot_invariant (c : Config) (h : Histogram) (t v p : Nat) :
    slotInv (Histogram.new c) ∧
    (slotInv h → slotInv (h.append t v)) ∧
    (∀ pid, h.config.find p = Except.ok pid → slotInv h →
      ∀ b ∈ (h.append t v).buckets, 1 ≤ pid ∧ pid < b.scale.length) := by
  refine ⟨?_, append_slotInv h t v, ?_⟩
  · intro b hb
    simp [Histogram.new] at hb
  · intro pid hfind hinv b hb
    have hlen := append_slotInv h t v hinv b hb
    have hbound := find_ok_bounds h.config p pid hfind
    rw [append_config] at hlen
    exact ⟨hbound.1, by omega⟩

/-- C10 witness: the invariant and in-bounds conclusion at a concrete
one-percentile histogram after one append. -/
theorem C10_slot_invariant_witness :
    1 ≤ 1 ∧ 1 < (((Histogram.new ⟨[95], 1, 100⟩).append 0 0).buckets.headD
      (Bucket.new 0)).scale.length := by
  have h := (C10_slot_invariant ⟨[95], 1, 100⟩ (Histogram.new ⟨[95], 1, 100⟩) 0 0 95).2.2
    1 (by decide) (fun b hb => by simp [Histogram.new] at hb)
  exact h _ (by decide)

/-! ### Helper lemmas about the eviction phase -/

theorem evictStep_not (m : Histogram) (hc : ¬ evictCond m) : m.evictStep = m := by
  unfold evictCond at hc
  unfold Histogram.evictStep
  rw [if_neg hc]

theorem evictStep_buckets (m : Histogram) (hc : evictCond m) :
    m.evictStep.buckets = m.buckets.dropLast := by
  unfold evictCond at hc
  unfold Histogram.evictStep
  rw [if_pos hc]
  dsimp only
  split <;> rfl

theorem evictStep_range_keep (m : Histogram) (hc : evictCond m)
    (hno : ¬ ((m.buckets.getLastD (Bucket.new 0)).range.min_max.1 < m.range.min_max.1 ∨
      (m.buckets.getLastD (Bucket.new 0)).range.min_max.2 > m.range.min_max.2)) :
    m.evictStep.range = m.range := by
  unfold evictCond at hc
  unfold Histogram.evictStep
  rw [if_pos hc]
  dsimp only
  rw [if_neg hno]

theorem evictStep_range_recompute (m : Histogram) (hc : evictCond m)
    (hyes : (m.buckets.getLastD (Bucket.new 0)).range.min_max.1 < m.range.min_max.1 ∨
      (m.buckets.getLastD (Bucket.new 0)).range.min_max.2 > m.range.min_max.2) :
    m.evictStep.range = evictRange m.buckets.dropLast := by
  unfold evictCond at hc
  unfold Histogram.evictStep
  rw [if_pos hc]
  dsimp only
  rw [if_pos hyes]

theorem evictRange_fold (bs : List Bucket) : ∀ (a c : Nat),
    bs.foldl
      (fun r x =>
        let r := if x.range.min_max.1 < r.min_max.1 then
          (⟨(x.range.min_max.1, r.min_max.2)⟩ : Range) else r
        if x.range.min_max.2 > r.min_max.2 then
          (⟨(r.min_max.1, x.range.min_max.2)⟩ : Range) else r)
      ⟨(a, c)⟩
    = ⟨(bs.foldl (fun m x => min m x.range.min_max.1) a,
        bs.foldl (fun m x => max m x.range.min_max.2) c)⟩ := by
  induction bs with
  | nil => intro a c; rfl
  | cons x xs ih =>
      intro a c
      simp only [List.foldl_cons]
      by_cases h1 : x.range.min_max.1 < a <;> by_cases h2 : x.range.min_max.2 > c
      · simp only [h1, h2, ite_true]
        rw [ih, min_eq_right (le_of_lt h1), max_eq_right (le_of_lt h2)]
      · simp only [h1, h2, ite_true, ite_false]
        rw [ih, min_eq_right (le_of_lt h1), max_eq_left (by omega)]
      · simp only [h1, h2, ite_true, ite_false]
        rw [ih, min_eq_left (by omega), max_eq_right (le_of_lt h2)]
      · simp only [h1, h2, ite_false]
        rw [ih, min_eq_left (by omega), max_eq_left (by omega)]

theorem foldl_min_eq (l : List Nat) (a : Nat) (hne : l ≠ []) (hle : ∀ x ∈ l, x ≤ a) :
    l.foldl min a = listMinD l := by
  cases l with
  | nil => exact absurd rfl hne
  | cons x xs =>
      simp only [List.foldl_cons, listMinD]
      have hx : min a x = x := by
        have := hle x (by simp)
        omega
      rw [hx]

theorem foldl_max_eq (l : List Nat) (hne : l ≠ []) :
    l.foldl max 0 = listMaxD l := by
  cases l with
  | nil => exact absurd rfl hne
  | cons x xs =>
      simp only [List.foldl_cons, listMaxD]
      have hx : max 0 x = x := by omega
      rw [hx]

/-- C5: each `Histogram::append` is the accumulation phase followed by the
eviction phase, which removes at most one bucket; the back bucket is popped
exactly when more than one bucket exists and its start offset exceeds
`live_time_sec`; the window range survives the eviction unchanged unless the
evicted bucket's own range strictly exceeded it on either side, in which
case it is recomputed as the overall min/max over the remaining buckets'
ranges (their mins all being below the `u64::MAX - 1` sentinel, as holds for
every bucket the code ever builds). -/
theorem C5_eviction_frame (m h : Histogram) (t v : Nat) :
    h.append t v = (h.appendCore t v).evictStep ∧
    m.buckets.length ≤ m.evictStep.buckets.length + 1 ∧
    (evictCond m → m.evictStep.buckets = m.buckets.dropLast) ∧
    (¬ evictCond m → m.evictStep = m) ∧
    (evictCond m →
      ¬ ((m.buckets.getLastD (Bucket.new 0)).range.min_max.1 < m.range.min_max.1 ∨
          (m.buckets.getLastD (Bucket.new 0)).range.min_max.2 > m.range.min_max.2) →
      m.evictStep.range = m.range) ∧
    (evictCond m →
      ((m.buckets.getLastD (Bucket.new 0)).range.min_max.1 < m.range.min_max.1 ∨
        (m.buckets.getLastD (Bucket.new 0)).range.min_max.2 > m.range.min_max.2) →
      (∀ x ∈ m.buckets.dropLast, x.range.min_max.1 ≤ u64MAX - 1) →
      m.evictStep.range
        = ⟨(listMinD (m.buckets.dropLast.map (fun x => x.range.min_max.1)),
            listMaxD (m.buckets.dropLast.map (fun x => x.range.min_max.2)))⟩) := by
  refine ⟨rfl, ?_, evictStep_buckets m, evictStep_not m, evictStep_range_keep m, ?_⟩
  · by_cases hc : evictCond m
    · rw [evictStep_buckets m hc, List.length_dropLast]
      omega
    · rw [evictStep_not m hc]
      omega
  · intro hc hyes hbound
    rw [evictStep_range_recompute m hc hyes]
    have hne : m.buckets.dropLast ≠ [] := by
      have hlen : m.buckets.dropLast.length = m.buckets.length - 1 :=
        List.length_dropLast _
      have := hc.1
      exact List.length_pos.mp (by omega)
    unfold evictRange Range.default
    rw [evictRange_fold]
    have hmapne1 : m.buckets.dropLast.map (fun x => x.range.min_max.1) ≠ [] := by
      intro hmap
      exact hne (List.map_eq_nil_iff.mp hmap)
    have hmapne2 : m.buckets.dropLast.map (fun x => x.range.min_max.2) ≠ [] := by
      intro hmap
      exact hne (List.map_eq_nil_iff.mp hmap)
    congr 1
    congr 1
    · rw [← List.foldl_map]
      exact foldl_min_eq _ _ hmapne1
        (fun x hx => by
          rcases List.mem_map.mp hx with ⟨b, hb, rfl⟩
          exact hbound b hb)
    · rw [← List.foldl_map]
      exact foldl_max_eq _ hmapne2

/-- C5 witness: the eviction characterization at a concrete two-bucket
state whose overdue back bucket held both extrema. -/
theorem C5_eviction_frame_witness :
    evictW.evictStep.buckets = [⟨8, [zeroScale], ⟨(5, 10)⟩⟩] ∧
    evictW.evictStep.range = ⟨(5, 10)⟩ := by
  have h := C5_eviction_frame evictW evictW 0 0
  have h3 := h.2.2.1 (by decide)
  have h6 := h.2.2.2.2.2 (by decide) (by decide) (by decide)
  constructor
  · rw [h3]
    rfl
  · rw [h6]
    rfl

/-! ### Helper lemmas about slot counts -/

theorem le_satInc (n : Nat) : n ≤ satInc n := by
  unfold satInc
  split <;> omega

theorem satInc_mono {a b : Nat} (h : a ≤ b) : satInc a ≤ satInc b := by
  unfold satInc
  split <;> split <;> omega

theorem append_count_eq (s : Scale) (v : Nat) : (s.append v).count = satInc s.count := by
  rw [Scale.append_eq]
  rfl

theorem new_countOf (time i : Nat) : countOf (Bucket.new time) i = 0 := by
  cases i with
  | zero => rfl
  | succ n =>
      unfold countOf Bucket.new
      rw [sgetD_default _ _ (by simp)]
      rfl

theorem percStep_countOf_ne (cfg : Config) (r : Range) (v : Nat) (b : Bucket)
    (pid j : Nat) (hpid : pid ≤ b.scale.length) (hj : j ≠ pid) :
    countOf (percStep cfg r v b pid) j = countOf b j := by
  unfold countOf percStep
  by_cases hc : b.scale.length ≤ pid
  · have hlen : b.scale.length = pid := le_antisymm hc hpid
    simp only [hc, ite_true]
    have hget : (b.scale ++ [zeroScale]).getD j zeroScale = b.scale.getD j zeroScale := by
      by_cases hjl : j < b.scale.length
      · exact sgetD_append_lt _ _ _ hjl
      · rw [sgetD_default (b.scale ++ [zeroScale]) j
            (by simp only [List.length_append, List.length_cons, List.length_nil]; omega),
          sgetD_default b.scale j (by omega)]
    split
    · dsimp only
      rw [sgetD_set_ne _ _ _ _ (fun he => hj he.symm), hget]
    · dsimp only
      rw [hget]
  · simp only [hc, ite_false]
    split
    · dsimp only
      rw [sgetD_set_ne _ _ _ _ (fun he => hj he.symm)]
    · rfl

theorem percStep_countOf_self (cfg : Config) (r : Range) (v : Nat) (b : Bucket)
    (pid : Nat) (hpid : pid ≤ b.scale.length) :
    countOf (percStep cfg r v b pid) pid ≤ satInc (countOf b pid) := by
  unfold countOf percStep
  by_cases hc : b.scale.length ≤ pid
  · have hlen : b.scale.length = pid := le_antisymm hc hpid
    simp only [hc, ite_true]
    have hget : (b.scale ++ [zeroScale]).getD pid zeroScale = zeroScale := by
      rw [← hlen]
      exact sgetD_append_last _ _
    have hbase : b.scale.getD pid zeroScale = zeroScale := sgetD_default _ _ (by omega)
    split
    · dsimp only
      rw [sgetD_set_self _ _ _
          (by simp only [List.length_append, List.length_cons, List.length_nil]; omega),
        hget, append_count_eq, hbase]
    · dsimp only
      rw [hget, hbase]
      exact le_satInc _
  · simp only [hc, ite_false]
    split
    · dsimp only
      by_cases hlt : pid < b.scale.length
      · rw [sgetD_set_self _ _ _ hlt, append_count_eq]
      · omega
    · exact le_satInc _

theorem percLoop_countOf_aux (cfg : Config) (r : Range) (v : Nat) :
    ∀ (k i : Nat) (b : Bucket), 1 ≤ i → i ≤ b.scale.length →
    (∀ j, j < i ∨ i + k ≤ j →
      countOf ((List.range' i k).foldl (percStep cfg r v) b) j = countOf b j) ∧
    (∀ j, i ≤ j → j < i + k →
      countOf ((List.range' i k).foldl (percStep cfg r v) b) j
        ≤ satInc (countOf b j)) := by
  intro k
  induction k with
  | zero =>
      intro i b h1 h2
      refine ⟨fun j _ => rfl, fun j hj1 hj2 => by omega⟩
  | succ k ih =>
      intro i b h1 h2
      have hr : List.range' i (k + 1) = i :: List.range' (i + 1) k := rfl
      rw [hr]
      simp only [List.foldl_cons]
      have hstep_len : (percStep cfg r v b i).scale.length = max b.scale.length (i + 1) :=
        percStep_length cfg r v b i h2
      have hih := ih (i + 1) (percStep cfg r v b i) (by omega) (by rw [hstep_len]; omega)
      constructor
      · intro j hj
        rcases hj with hj | hj
        · rw [hih.1 j (Or.inl (by omega)), percStep_countOf_ne cfg r v b i j h2 (by omega)]
        · rw [hih.1 j (Or.inr (by omega)), percStep_countOf_ne cfg r v b i j h2 (by omega)]
      · intro j hj1 hj2
        by_cases hji : j = i
        · subst hji
          rw [hih.1 j (Or.inl (by omega))]
          exact percStep_countOf_self cfg r v b j h2
        · calc countOf ((List.range' (i + 1) k).foldl (percStep cfg r v)
                (percStep cfg r v b i)) j
              ≤ satInc (countOf (percStep cfg r v b i) j) := hih.2 j (by omega) (by omega)
            _ = satInc (countOf b j) := by
                rw [percStep_countOf_ne cfg r v b i j h2 hji]

theorem bucketFeed_countOf_zero (b : Bucket) (v : Nat) (hb : 1 ≤ b.scale.length) :
    countOf (bucketFeed b v) 0 = satInc (countOf b 0) := by
  unfold countOf bucketFeed
  dsimp only
  rw [sgetD_set_self _ _ _ (by omega), append_count_eq]

theorem bucketFeed_countOf_ne (b : Bucket) (v : Nat) (j : Nat) (hj : j ≠ 0) :
    countOf (bucketFeed b v) j = countOf b j := by
  unfold countOf bucketFeed
  dsimp only
  rw [sgetD_set_ne _ _ _ _ (fun he => hj he.symm)]

theorem front_countOf_zero (cfg : Config) (r : Range) (v : Nat) (b0 : Bucket)
    (hb : 1 ≤ b0.scale.length) :
    countOf (percLoop cfg r v (bucketFeed b0 v)) 0 = satInc (countOf b0 0) := by
  unfold percLoop
  have hfb : 1 ≤ (bucketFeed b0 v).scale.length := by
    rw [bucketFeed_length]
    exact hb
  have h := (percLoop_countOf_aux cfg r v cfg.percentiles.length 1 (bucketFeed b0 v)
      (le_refl 1) hfb).1 0 (Or.inl (by omega))
  rw [h, bucketFeed_countOf_zero b0 v hb]

theorem front_countOf_le (cfg : Config) (r : Range) (v : Nat) (b0 : Bucket)
    (hb : 1 ≤ b0.scale.length)
    (hinv : ∀ i, countOf b0 i ≤ countOf b0 0) :
    ∀ i, countOf (percLoop cfg r v (bucketFeed b0 v)) i
      ≤ countOf (percLoop cfg r v (bucketFeed b0 v)) 0 := by
  intro i
  rw [front_countOf_zero cfg r v b0 hb]
  unfold percLoop
  have hfb : 1 ≤ (bucketFeed b0 v).scale.length := by
    rw [bucketFeed_length]
    exact hb
  have haux := percLoop_countOf_aux cfg r v cfg.percentiles.length 1 (bucketFeed b0 v)
      (le_refl 1) hfb
  by_cases hi0 : i = 0
  · subst hi0
    rw [haux.1 0 (Or.inl (by omega)), bucketFeed_countOf_zero b0 v hb]
  · by_cases hir : i < 1 + cfg.percentiles.length
    · calc countOf ((List.range' 1 cfg.percentiles.length).foldl (percStep cfg r v)
            (bucketFeed b0 v)) i
          ≤ satInc (countOf (bucketFeed b0 v) i) := haux.2 i (by omega) (by omega)
        _ = satInc (countOf b0 i) := by rw [bucketFeed_countOf_ne b0 v i hi0]
        _ ≤ satInc (countOf b0 0) := satInc_mono (hinv i)
    · rw [haux.1 i (Or.inr (by omega)), bucketFeed_countOf_ne b0 v i hi0]
      exact le_trans (hinv i) (le_satInc _)

theorem append_countInv (h : Histogram) (t v : Nat) (hne : scaleNE h)
    (hinv : countInv h) :
    countInv (h.append t v) ∧ scaleNE (h.append t v) := by
  have hcore : countInv (h.appendCore t v) ∧ scaleNE (h.appendCore t v) := by
    constructor
    · intro b hb i
      rcases appendCore_buckets_mem h t v b hb with ⟨b0, hb0, rfl⟩ | hb'
      · have hb0ne : 1 ≤ b0.scale.length := by
          rcases hb0 with rfl | hm
          · exact le_refl _
          · exact hne b0 hm
        have hb0inv : ∀ i, countOf b0 i ≤ countOf b0 0 := by
          rcases hb0 with rfl | hm
          · intro i
            rw [new_countOf, new_countOf]
          · exact hinv b0 hm
        exact front_countOf_le h.config (h.range.check v) v b0 hb0ne hb0inv i
      · exact hinv b hb' i
    · intro b hb
      rcases appendCore_buckets_mem h t v b hb with ⟨b0, hb0, rfl⟩ | hb'
      · have hb0ne : 1 ≤ b0.scale.length := by
          rcases hb0 with rfl | hm
          · exact le_refl _
          · exact hne b0 hm
        rw [percLoop_length _ _ _ _ (by rw [bucketFeed_length]; exact hb0ne),
          bucketFeed_length]
        omega
      · exact hne b hb'
  constructor
  · intro b hb
    exact hcore.1 b (evictStep_subset _ hb)
  · intro b hb
    exact hcore.2 b (evictStep_subset _ hb)

theorem run_inv (c : Config) (tvs : List (Nat × Nat)) :
    countInv (run c tvs) ∧ scaleNE (run c tvs) := by
  suffices hgen : ∀ (tvs : List (Nat × Nat)) (h0 : Histogram), scaleNE h0 → countInv h0 →
      countInv (tvs.foldl (fun h tv => h.append tv.1 tv.2) h0) ∧
      scaleNE (tvs.foldl (fun h tv => h.append tv.1 tv.2) h0) by
    exact hgen tvs (Histogram.new c) (fun b hb => by simp [Histogram.new] at hb)
      (fun b hb => by simp [Histogram.new] at hb)
  intro tvs
  induction tvs with
  | nil => intro h0 h1 h2; exact ⟨h2, h1⟩
  | cons tv tvs ih =>
      intro h0 h1 h2
      simp only [List.foldl_cons]
      have hstep := append_countInv h0 tv.1 tv.2 h1 h2
      exact ih _ hstep.2 hstep.1

theorem map_sum_foldl (bs : List Bucket) (f : Bucket → Nat) :
    (bs.map f).sum = bs.foldl (fun a x => a + f x) 0 := by
  rw [List.sum_eq_foldl, List.foldl_map]

theorem sample_count_map (h : Histogram) :
    h.sample_count = (h.buckets.map (fun b => countOf b 0)).sum := by
  rw [map_sum_foldl]
  rfl

theorem headD_irrel (l : List Bucket) (hne : l ≠ []) (a b : Bucket) :
    l.headD a = l.headD b := by
  cases l with
  | nil => exact absurd rfl hne
  | cons x xs => rfl

theorem sum_head (bs : List Bucket) (f : Bucket → Nat) (d : Bucket) (hne : bs ≠ []) :
    (bs.map f).sum = f (bs.headD d) + (bs.tail.map f).sum := by
  cases bs with
  | nil => exact absurd rfl hne
  | cons x xs => simp

theorem sum_dropLast (bs : List Bucket) (f : Bucket → Nat) (d : Bucket) (hne : bs ≠ []) :
    (bs.map f).sum = (bs.dropLast.map f).sum + f (bs.getLastD d) := by
  induction bs with
  | nil => exact absurd rfl hne
  | cons x xs ih =>
      cases xs with
      | nil => simp
      | cons y ys =>
          have h1 : (x :: y :: ys).dropLast = x :: (y :: ys).dropLast := rfl
          have h2 : (x :: y :: ys).getLastD d = (y :: ys).getLastD d := rfl
          rw [h1, h2]
          have ihy := ih (by simp)
          simp only [List.map_cons, List.sum_cons] at ihy ⊢
          omega

theorem head_count_le (h : Histogram) (hne : h.buckets ≠ []) :
    countOf (h.buckets.headD (Bucket.new 0)) 0 ≤ h.sample_count := by
  rw [sample_count_map]
  exact List.single_le_sum (fun _ _ => Nat.zero_le _) _
    (List.mem_map_of_mem _ (headD_mem _ _ hne))

theorem appendCore_sample_count (h : Histogram) (t v : Nat) (hne : scaleNE h)
    (hc0 : h.buckets ≠ [] → countOf (h.buckets.headD (Bucket.new 0)) 0 < u32MAX) :
    (h.appendCore t v).sample_count = h.sample_count + 1 := by
  rw [sample_count_map, sample_count_map]
  simp only [Histogram.appendCore]
  by_cases hcond : (h.buckets.length = 0 ∨
      sub32 (clamp32 t) (h.buckets.headD (Bucket.new 0)).time > h.config.span_sec)
  · simp only [hcond, ite_true]
    rw [List.map_cons, List.sum_cons]
    rw [show ((Bucket.new (clamp32 t) :: h.buckets).headD (Bucket.new (clamp32 t)))
        = Bucket.new (clamp32 t) from rfl]
    rw [show (Bucket.new (clamp32 t) :: h.buckets).tail = h.buckets from rfl]
    rw [front_countOf_zero h.config (h.range.check v) v (Bucket.new (clamp32 t))
        (by simp [Bucket.new]), new_countOf]
    rw [show satInc 0 = 1 from by decide]
    omega
  · simp only [hcond, ite_false]
    have hbne : h.buckets ≠ [] := by
      intro hnil
      exact hcond (Or.inl (by simp [hnil]))
    rw [List.map_cons, List.sum_cons]
    rw [front_countOf_zero _ _ _ _ (hne _ (headD_mem _ _ hbne))]
    have hlt : countOf (h.buckets.headD (Bucket.new (clamp32 t))) 0 < u32MAX := by
      rw [headD_irrel h.buckets hbne (Bucket.new (clamp32 t)) (Bucket.new 0)]
      exact hc0 hbne
    have hsat : satInc (countOf (h.buckets.headD (Bucket.new (clamp32 t))) 0)
        = countOf (h.buckets.headD (Bucket.new (clamp32 t))) 0 + 1 := by
      unfold satInc
      rw [if_pos hlt]
    rw [hsat, sum_head h.buckets _ (Bucket.new (clamp32 t)) hbne]
    omega

theorem evictCond_ne (m : Histogram) (hc : evictCond m) : m.buckets ≠ [] := by
  have := hc.1
  exact List.length_pos.mp (by omega)

theorem evict_sample_count (m : Histogram) (hc : evictCond m) :
    m.sample_count = m.evictStep.sample_count
      + countOf (m.buckets.getLastD (Bucket.new 0)) 0 := by
  rw [sample_count_map, sample_count_map, evictStep_buckets m hc]
  exact sum_dropLast m.buckets _ (Bucket.new 0) (evictCond_ne m hc)

theorem append_step_count (h : Histogram) (t v : Nat) (hne : scaleNE h)
    (hc0 : h.buckets ≠ [] → countOf (h.buckets.headD (Bucket.new 0)) 0 < u32MAX) :
    (h.append t v).sample_count + (((h.appendE t v).2).map (fun b => countOf b 0)).sum
      = h.sample_count + 1 := by
  have hcore := appendCore_sample_count h t v hne hc0
  by_cases hcond : evictCond (h.appendCore t v)
  · have hsnd : (h.appendE t v).2
        = [(h.appendCore t v).buckets.getLastD (Bucket.new 0)] := by
      unfold Histogram.appendE
      unfold evictCond at hcond
      dsimp only
      rw [if_pos hcond]
    have hev := evict_sample_count (h.appendCore t v) hcond
    rw [hsnd]
    show ((h.appendCore t v).evictStep).sample_count + _ = _
    simp only [List.map_cons, List.map_nil, List.sum_cons, List.sum_nil]
    omega
  · have hsnd : (h.appendE t v).2 = [] := by
      unfold Histogram.appendE
      unfold evictCond at hcond
      dsimp only
      rw [if_neg hcond]
    have hid := evictStep_not _ hcond
    rw [hsnd]
    show ((h.appendCore t v).evictStep).sample_count + _ = _
    rw [hid]
    simp only [List.map_nil, List.sum_nil]
    omega

theorem runE_count_aux :
    ∀ (tvs : List (Nat × Nat)) (h0 : Histogram) (ev : List Bucket) (n : Nat),
      scaleNE h0 → countInv h0 →
      h0.sample_count + (ev.map (fun b => countOf b 0)).sum = n →
      n + tvs.length ≤ u32MAX →
      (tvs.foldl (fun acc tv =>
          let s := acc.1.appendE tv.1 tv.2
          (s.1, acc.2 ++ s.2)) (h0, ev)).1.sample_count
        + ((tvs.foldl (fun acc tv =>
            let s := acc.1.appendE tv.1 tv.2
            (s.1, acc.2 ++ s.2)) (h0, ev)).2.map (fun b => countOf b 0)).sum
        = n + tvs.length := by
  intro tvs
  induction tvs with
  | nil =>
      intro h0 ev n h1 h2 h3 h4
      simpa using h3
  | cons tv tvs ih =>
      intro h0 ev n h1 h2 h3 h4
      simp only [List.foldl_cons]
      have hc0 : h0.buckets ≠ [] → countOf (h0.buckets.headD (Bucket.new 0)) 0 < u32MAX := by
        intro hbne
        have hle := head_count_le h0 hbne
        have hlen : 1 ≤ (tv :: tvs).length := by simp
        simp only [List.length_cons] at h4
        omega
      have hstep := append_step_count h0 tv.1 tv.2 h1 hc0
      have hpres := append_countInv h0 tv.1 tv.2 h1 h2
      have happE1 : (h0.appendE tv.1 tv.2).1 = h0.append tv.1 tv.2 := rfl
      have hih := ih (h0.appendE tv.1 tv.2).1 (ev ++ (h0.appendE tv.1 tv.2).2) (n + 1)
        (by rw [happE1]; exact hpres.2) (by rw [happE1]; exact hpres.1)
        (by
          rw [happE1, List.map_append, List.sum_append]
          omega)
        (by
          simp only [List.length_cons] at h4
          omega)
      have hrhs : n + (tv :: tvs).length = (n + 1) + tvs.length := by
        simp only [List.length_cons]
        omega
      rw [hrhs]
      exact hih

theorem runE_fst (c : Config) (tvs : List (Nat × Nat)) : (runE c tvs).1 = run c tvs := by
  suffices hgen : ∀ (tvs : List (Nat × Nat)) (h0 : Histogram) (ev : List Bucket),
      (tvs.foldl (fun acc tv =>
        let s := acc.1.appendE tv.1 tv.2
        (s.1, acc.2 ++ s.2)) (h0, ev)).1
        = tvs.foldl (fun h tv => h.append tv.1 tv.2) h0 by
    exact hgen tvs (Histogram.new c) []
  intro tvs
  induction tvs with
  | nil => intro h0 ev; rfl
  | cons tv tvs ih =>
      intro h0 ev
      simp only [List.foldl_cons]
      exact ih _ _

/-- C9 (amended): after any sequence of appends, every bucket's individual
slot counts are bounded by its slot-0 count (the claim's sum over all
percentile slots can exceed slot 0 when two bands admit the same value —
see the counterexample), and provided fewer than `u32::MAX` appends were
made (no counter saturation), `sample_count()` plus the slot-0 counts of
the evicted buckets equals the number of append calls, i.e. `sample_count()`
counts exactly the append calls whose bucket has not been evicted. -/
theorem C9_count_conservation (c : Config) (tvs : List (Nat × Nat)) :
    (∀ b ∈ (run c tvs).buckets, ∀ i, countOf b i ≤ countOf b 0) ∧
    (runE c tvs).1 = run c tvs ∧
    (tvs.length < u32MAX →
      (run c tvs).sample_count
        + (((runE c tvs).2).map (fun b => countOf b 0)).sum = tvs.length) := by
  refine ⟨(run_inv c tvs).1, runE_fst c tvs, ?_⟩
  intro hlen
  have h := runE_count_aux tvs (Histogram.new c) [] 0
    (fun b hb => by simp [Histogram.new] at hb)
    (fun b hb => by simp [Histogram.new] at hb)
    rfl (by omega)
  have h' : (runE c tvs).1.sample_count
      + (((runE c tvs).2).map (fun b => countOf b 0)).sum = tvs.length := by
    simpa using h
  rw [runE_fst c tvs] at h'
  exact h'

/-- C9 witness: two appends into one bucket, nothing evicted, so
`sample_count` is exactly 2. -/
theorem C9_count_conservation_witness :
    (run Config.default [(0, 5), (0, 7)]).sample_count
      + (((runE Config.default [(0, 5), (0, 7)]).2).map (fun b => countOf b 0)).sum
      = 2 := by
  have h := (C9_count_conservation Config.default [(0, 5), (0, 7)]).2.2 (by decide)
  simpa using h

end Shim
